import Mathlib

/-!
Verification of the conditional-degree MCMC sampler (`MPLEconddeg`).

The repository ships only the declarations of `MPLEconddeg_wrapper`,
`CondDegSampler` and `CondDegSample` (src/src/MPLEconddeg.h); their bodies
live outside the repository snapshot.  Every definition below is therefore
modelled from the specification's description of the sampler: the mutable
graph store with incremental degree counters, the degree-bound filter, the
statistics model maintained by deltas, the Metropolis-Hastings acceptance
rule, and the burn-in / thinning / sample-buffer state machine of the
driver.  Doubles are modelled as exact rationals; the acceptance
probability lives in the reals.
-/

namespace CondDeg

/-- Modelled from the spec: an edge of the graph store, an ordered pair of
nodes (`§3`: edge set keyed by ordered node pairs). -/
structure Edge where
  head : Nat
  tail : Nat
deriving DecidableEq, Repr

/-- Modelled from the spec: canonical storage key of an edge.  Directed
graphs keep the pair as is; undirected graphs store the pair with
`head ≤ tail` (`§3`: canonical ordering head<tail). -/
def canon (directed : Bool) (e : Edge) : Edge :=
  if directed then e else if e.head ≤ e.tail then e else ⟨e.tail, e.head⟩

/-- Modelled from the spec: the Graph Store (`§3`, `§4.1`), absent from the
repository snapshot (declared in src/src/MPLEconddeg.h as `Network`).
Node count, directedness flag, optional bipartite split point, an edge
set of canonical keys, and per-node in/out degree counters maintained
incrementally. -/
structure Network where
  nnodes : Nat
  directed : Bool
  bipartite : Nat
  edges : Finset Edge
  outdeg : List Nat
  indeg : List Nat
deriving DecidableEq

/-- Out-degree counter of a node (0 outside the list). -/
def Network.degOut (nw : Network) (v : Nat) : Nat := nw.outdeg.getD v 0

/-- In-degree counter of a node (0 outside the list). -/
def Network.degIn (nw : Network) (v : Nat) : Nat := nw.indeg.getD v 0

/-- Total degree of a node: sum of the two counters (the degree of a node
of an undirected graph, where the split is only a storage artefact). -/
def Network.degTotal (nw : Network) (v : Nat) : Nat := nw.degOut v + nw.degIn v

/-- Increment slot `i` of a degree-counter list. -/
def incAt (l : List Nat) (i : Nat) : List Nat := l.set i (l.getD i 0 + 1)

/-- Decrement slot `i` of a degree-counter list. -/
def decAt (l : List Nat) (i : Nat) : List Nat := l.set i (l.getD i 0 - 1)

/-- Modelled from the spec: `hasEdge(u,v)` of the Graph Store (`§4.1`). -/
def Network.hasEdge (nw : Network) (e : Edge) : Bool :=
  decide (canon nw.directed e ∈ nw.edges)

/-- Modelled from the spec: `toggleEdge(u,v)` of the Graph Store (`§4.1`):
inserts the canonical key if absent, removes it if present, updating the
degree counters of the two endpoints incrementally. -/
def Network.toggleEdge (nw : Network) (e0 : Edge) : Network :=
  let e := canon nw.directed e0
  if e ∈ nw.edges then
    { nw with edges := nw.edges.erase e,
              outdeg := decAt nw.outdeg e.head,
              indeg := decAt nw.indeg e.tail }
  else
    { nw with edges := insert e nw.edges,
              outdeg := incAt nw.outdeg e.head,
              indeg := incAt nw.indeg e.tail }

/-- Apply a toggle set to the graph store, in order (`§4.5` step 5:
"apply all toggles to Graph Store"). -/
def applyToggles (nw : Network) (es : List Edge) : Network :=
  es.foldl Network.toggleEdge nw

/-- Structural well-formedness of a stored network: counter lists sized to
the node count, and every stored edge a canonical, loop-free key between
existing nodes (`§4.1`: no self-loops, ever). -/
def Network.wfNet (nw : Network) : Prop :=
  nw.outdeg.length = nw.nnodes ∧ nw.indeg.length = nw.nnodes ∧
    ∀ e ∈ nw.edges, canon nw.directed e = e ∧ e.head ≠ e.tail ∧
      e.head < nw.nnodes ∧ e.tail < nw.nnodes

instance (nw : Network) : Decidable nw.wfNet := by
  unfold Network.wfNet; infer_instance

/-- Modelled from the spec: the degree-consistency invariant (`§3`, `§8`):
each degree counter equals the number of stored edges touching the node
on the corresponding side. -/
def Network.degConsistent (nw : Network) : Prop :=
  ∀ v < nw.nnodes,
    nw.degOut v = (nw.edges.filter (fun e => e.head = v)).card ∧
    nw.degIn v = (nw.edges.filter (fun e => e.tail = v)).card

instance (nw : Network) : Decidable nw.degConsistent := by
  unfold Network.degConsistent; infer_instance

/-- Modelled from the spec: a per-node degree bound
`(minIn, maxIn, minOut, maxOut)` (`§3`). -/
structure Bound where
  minIn : Nat
  maxIn : Nat
  minOut : Nat
  maxOut : Nat
deriving DecidableEq, Repr

/-- Modelled from the spec: the Degree Bound configuration (`§3`), absent
from the repository snapshot (declared as `DegreeBound` in the header):
the per-node bound resolved at initialization, plus the exact-degree
flag `condAllDegExact`. -/
structure DegreeBound where
  bounds : List Bound
  condAllDegExact : Bool
deriving DecidableEq, Repr

/-- Bound used for a node with no configured entry. -/
def defaultBound : Bound := ⟨0, 0, 0, 0⟩

/-- Modelled from the spec: whether one node's current degree lies within
its configured bound (`§4.3`).  Directed graphs check the in- and
out-degree against the in- and out-ranges; undirected graphs check the
total degree against the out-range. -/
def nodeOK (bd : DegreeBound) (nw : Network) (v : Nat) : Bool :=
  let b := bd.bounds.getD v defaultBound
  if nw.directed then
    decide (b.minIn ≤ nw.degIn v) && decide (nw.degIn v ≤ b.maxIn) &&
      decide (b.minOut ≤ nw.degOut v) && decide (nw.degOut v ≤ b.maxOut)
  else
    decide (b.minOut ≤ nw.degTotal v) && decide (nw.degTotal v ≤ b.maxOut)

/-- Every node's degree lies within its configured bound (`§8`, bound
satisfaction). -/
def withinBounds (bd : DegreeBound) (nw : Network) : Bool :=
  (List.range nw.nnodes).all (nodeOK bd nw)

/-- Modelled from the spec: the degree sequence of `nw` agrees with the
degree sequence of the reference network `ref` (`§4.3`, exact-degree
mode): directed graphs preserve both counter vectors, undirected graphs
preserve every node's total degree. -/
def degPreserved (ref nw : Network) : Bool :=
  if ref.directed then
    decide (nw.outdeg = ref.outdeg) && decide (nw.indeg = ref.indeg)
  else
    (List.range ref.nnodes).all (fun v => decide (nw.degTotal v = ref.degTotal v))

/-- Modelled from the spec: `isFeasible(u,v)` of the Degree Bound Filter
for a single toggle (`§4.3`): the resulting degrees of the two affected
endpoints stay within their bounds. -/
def edgeFeasible (bd : DegreeBound) (nw : Network) (e : Edge) : Bool :=
  nodeOK bd (nw.toggleEdge e) e.head && nodeOK bd (nw.toggleEdge e) e.tail

/-- Modelled from the spec: feasibility of a whole toggle set (`§4.3`,
`§4.5` step 2).  In exact-degree mode the filter confirms the swap
invariant — applying the whole set preserves every node's degree;
otherwise each toggle is checked against the per-node bounds. -/
def setFeasible (bd : DegreeBound) (nw : Network) (es : List Edge) : Bool :=
  if bd.condAllDegExact then degPreserved nw (applyToggles nw es)
  else es.all (edgeFeasible bd nw)

/-- Modelled from the spec: the Statistics Model (`§4.2`), absent from the
repository snapshot (declared as `Model` in the header): an ordered
sequence of statistic terms, each a pure function of the graph state. -/
abbrev Model := List (Network → ℚ)

/-- Modelled from the spec: `changeStatistics(u,v)` for one term (`§4.2`):
the value the term would gain if the edge were toggled. -/
def changeStat (f : Network → ℚ) (nw : Network) (e : Edge) : ℚ :=
  f (nw.toggleEdge e) - f nw

/-- The vector of all terms evaluated fresh against a graph. -/
def evalAll (m : Model) (nw : Network) : List ℚ := m.map (fun f => f nw)

/-- The change-statistic vector of a single toggle. -/
def changeAll (m : Model) (nw : Network) (e : Edge) : List ℚ :=
  m.map (fun f => changeStat f nw e)

/-- Componentwise sum of two statistic vectors (`applyDelta`, `§4.2`). -/
def addVec (a b : List ℚ) : List ℚ := List.zipWith (fun x y => x + y) a b

/-- Modelled from the spec: the statistic delta of a toggle set (`§4.5`
step 3), accumulated toggle by toggle against the intermediate graph so
that the sum telescopes to the total change. -/
def changeStats (m : Model) (nw : Network) : List Edge → List ℚ
  | [] => List.replicate m.length 0
  | e :: es => addVec (changeAll m nw e) (changeStats m (nw.toggleEdge e) es)

/-- Dot product of two rational vectors. -/
def dot (a b : List ℚ) : ℚ := (List.zipWith (fun x y => x * y) a b).sum

/-- Modelled from the spec: the Metropolis-Hastings acceptance probability
`p = min(1, exp(theta ⬝ delta) * hastingsRatio)` (`§4.5` step 4). -/
noncomputable def acceptProb (theta delta : List ℚ) (ratio : ℚ) : ℝ :=
  min 1 (Real.exp ((dot theta delta : ℚ) : ℝ) * (ratio : ℝ))

/-- Modelled from the spec: a uniform draw `r` leads to acceptance exactly
when `r < p` (`§4.5` step 5). -/
def AcceptCond (theta delta : List ℚ) (ratio r : ℚ) : Prop :=
  (r : ℝ) < acceptProb theta delta ratio

/-- Modelled from the spec: the run schedule `(burnin, interval,
samplesize)` (`§6`). -/
structure Sched where
  burnin : Nat
  interval : Nat
  samplesize : Nat
deriving DecidableEq, Repr

/-- Modelled from the spec: the states of the Sampler Driver state machine
(`§4.5`). -/
inductive Phase where
  | burnIn
  | sampling
  | done
deriving DecidableEq, Repr

/-- Modelled from the spec: one candidate of the Proposal Mechanism
(`§4.4`): a toggle set of one or two edges together with the Hastings
ratio of the proposal distribution. -/
structure Proposal where
  toggles : List Edge
  ratio : ℚ
deriving DecidableEq, Repr

/-- Modelled from the spec: the random input consumed by one step of the
chain: the proposal produced by the strategy (`none` when the strategy
signals `ProposalExhausted`, `§4.4`) and the uniform draw `r`. -/
structure StepInput where
  prop : Option Proposal
  r : ℚ
deriving DecidableEq, Repr

/-- Modelled from the spec: the error taxonomy of the run (`§7`). -/
inductive SamplerError where
  | invalidConfiguration
  | capacityExceeded
deriving DecidableEq, Repr

/-- Modelled from the spec: the mutable state of one chain, absent from
the repository snapshot (the working state of `CondDegSampler` and
`CondDegSample`): the graph store, the accumulated statistics vector,
the driver phase with its step counter, the sample buffer, and the
accepted-step counter `staken`. -/
structure SState where
  nw : Network
  stats : List ℚ
  phase : Phase
  ctr : Nat
  buffer : List (List ℚ)
  staken : Nat

/-- Modelled from the spec: bookkeeping at the completion of one step of
the driver state machine (`§4.5`): burn-in counts down every step,
accepted or not; within sampling every `interval`-th step appends the
accumulated statistics vector to the sample buffer; the run is done once
the buffer holds `samplesize` entries. -/
def tick (sc : Sched) (s : SState) : SState :=
  match s.phase with
  | .burnIn =>
      if s.ctr + 1 = sc.burnin then { s with phase := .sampling, ctr := 0 }
      else { s with ctr := s.ctr + 1 }
  | .sampling =>
      if s.ctr + 1 = sc.interval then
        { s with ctr := 0, buffer := s.buffer ++ [s.stats],
                 phase := if (s.buffer ++ [s.stats]).length = sc.samplesize then .done
                          else .sampling }
      else { s with ctr := s.ctr + 1 }
  | .done => s

/-- Modelled from the spec: the configuration handed to the sampler by the
marshaling layer (`§6`): the parameter vector, the statistic terms, the
degree bounds, the run schedule, and the edge-count ceiling
(`maxedges`). -/
structure Config where
  theta : List ℚ
  model : Model
  bd : DegreeBound
  sched : Sched
  maxedges : Nat

/-- Modelled from the spec: validity of one proposed toggle (`§4.1`,
`§4.4`): no self-loop, endpoints inside the node range, and endpoints on
opposite sides of a bipartite split. -/
def validToggle (nw : Network) (e : Edge) : Prop :=
  e.head ≠ e.tail ∧ e.head < nw.nnodes ∧ e.tail < nw.nnodes ∧
    (0 < nw.bipartite → ((e.head < nw.bipartite) ↔ ¬(e.tail < nw.bipartite)))

instance (nw : Network) (e : Edge) : Decidable (validToggle nw e) := by
  unfold validToggle; infer_instance

/-- Modelled from the spec: well-formedness of a proposal (`§4.4`): the
toggle set holds one edge, or two edges with distinct canonical keys in
exact-degree mode, and every toggle is valid for the current graph. -/
def wfProposal (bd : DegreeBound) (nw : Network) (p : Proposal) : Prop :=
  p.toggles ≠ [] ∧ p.toggles.length ≤ 2 ∧
    (bd.condAllDegExact = false → p.toggles.length = 1) ∧
    (p.toggles.map (canon nw.directed)).Nodup ∧
    ∀ e ∈ p.toggles, validToggle nw e

instance (bd : DegreeBound) (nw : Network) (p : Proposal) :
    Decidable (wfProposal bd nw p) := by
  unfold wfProposal; infer_instance

/-- Modelled from the spec: the observable result of one step: either the
chain continues in a successor state, or the run terminates fatally and
reports the partially filled sample buffer (`§7`). -/
inductive Outcome where
  | next (s : SState)
  | fatal (e : SamplerError) (buf : List (List ℚ))

/-- Modelled from the spec: one step of the Sampler Driver (`§4.5`,
per-step algorithm), absent from the repository snapshot (the loop body
of `CondDegSample`).  A step consumes the proposal and the uniform draw;
an exhausted proposal, an ill-formed proposal (`InvalidTopology`
during a proposal, `§7`) and an infeasible toggle set degrade to
rejections; an accepted move that would exceed the edge-count ceiling is
fatal `CapacityExceeded`; otherwise acceptance applies all toggles
atomically, adds the delta to the statistics, and bumps `staken`. -/
inductive Step (cfg : Config) (s : SState) : StepInput → Outcome → Prop where
  | exhausted (r : ℚ) :
      s.phase ≠ .done →
      Step cfg s ⟨none, r⟩ (.next (tick cfg.sched s))
  | illFormed (p : Proposal) (r : ℚ) :
      s.phase ≠ .done →
      ¬ wfProposal cfg.bd s.nw p →
      Step cfg s ⟨some p, r⟩ (.next (tick cfg.sched s))
  | infeasible (p : Proposal) (r : ℚ) :
      s.phase ≠ .done →
      wfProposal cfg.bd s.nw p →
      setFeasible cfg.bd s.nw p.toggles = false →
      Step cfg s ⟨some p, r⟩ (.next (tick cfg.sched s))
  | rejected (p : Proposal) (r : ℚ) :
      s.phase ≠ .done →
      wfProposal cfg.bd s.nw p →
      setFeasible cfg.bd s.nw p.toggles = true →
      ¬ AcceptCond cfg.theta (changeStats cfg.model s.nw p.toggles) p.ratio r →
      Step cfg s ⟨some p, r⟩ (.next (tick cfg.sched s))
  | capacity (p : Proposal) (r : ℚ) :
      s.phase ≠ .done →
      wfProposal cfg.bd s.nw p →
      setFeasible cfg.bd s.nw p.toggles = true →
      AcceptCond cfg.theta (changeStats cfg.model s.nw p.toggles) p.ratio r →
      cfg.maxedges < (applyToggles s.nw p.toggles).edges.card →
      Step cfg s ⟨some p, r⟩ (.fatal .capacityExceeded s.buffer)
  | accepted (p : Proposal) (r : ℚ) :
      s.phase ≠ .done →
      wfProposal cfg.bd s.nw p →
      setFeasible cfg.bd s.nw p.toggles = true →
      AcceptCond cfg.theta (changeStats cfg.model s.nw p.toggles) p.ratio r →
      (applyToggles s.nw p.toggles).edges.card ≤ cfg.maxedges →
      Step cfg s ⟨some p, r⟩
        (.next (tick cfg.sched
          { s with nw := applyToggles s.nw p.toggles,
                   stats := addVec s.stats
                     (changeStats cfg.model s.nw p.toggles),
                   staken := s.staken + 1 }))

/-- A non-fatal run of the chain: a sequence of steps, each continuing in
the successor state of the previous one. -/
inductive Run (cfg : Config) : SState → List StepInput → SState → Prop where
  | nil (s : SState) : Run cfg s [] s
  | cons {s s1 s2 : SState} {i : StepInput} {inputs : List StepInput} :
      Step cfg s i (.next s1) → Run cfg s1 inputs s2 →
      Run cfg s (i :: inputs) s2

/-- Modelled from the spec: the initialization check of the wrapper
(`§7`): a starting degree outside its own bound is fatal
`InvalidConfiguration`; an initial edge count above the ceiling is fatal
`CapacityExceeded` (`§8`, Scenario D) — both detected before any step. -/
def initCheck (cfg : Config) (nw0 : Network) : Except SamplerError Unit :=
  if withinBounds cfg.bd nw0 = false then .error .invalidConfiguration
  else if cfg.maxedges < nw0.edges.card then .error .capacityExceeded
  else .ok ()

/-- Modelled from the spec: the initial state of the chain (`§3`,
lifecycle): statistics initialized from the starting graph, empty sample
buffer, and the driver phase chosen from the schedule. -/
def initState (nw0 : Network) (m : Model) (sc : Sched) : SState :=
  { nw := nw0, stats := evalAll m nw0,
    phase := if sc.samplesize = 0 then .done
             else if sc.burnin = 0 then .sampling else .burnIn,
    ctr := 0, buffer := [], staken := 0 }

/-- Modelled from the spec: the observable result of a whole run (`§6`,
`§7`): the recorded samples with the final graph and accepted count, or
a terminated run with its reason and the partially filled buffer. -/
inductive RunResult where
  | ok (samples : List (List ℚ)) (final : Network) (staken : Nat)
  | fail (e : SamplerError) (samples : List (List ℚ))

/-- Modelled from the spec: a complete invocation of the sampler through
the wrapper, absent from the repository snapshot (the body of
`MPLEconddeg_wrapper`): the initialization check runs first and aborts
the run with no samples on failure; otherwise the chain runs from the
initial state, either to a normal end of its input stream or to a fatal
step. -/
inductive WrapperRun (cfg : Config) (nw0 : Network) :
    List StepInput → RunResult → Prop where
  | initFail {e : SamplerError} (inputs : List StepInput) :
      initCheck cfg nw0 = .error e →
      WrapperRun cfg nw0 inputs (.fail e [])
  | finished {inputs : List StepInput} {s2 : SState} :
      initCheck cfg nw0 = .ok () →
      Run cfg (initState nw0 cfg.model cfg.sched) inputs s2 →
      WrapperRun cfg nw0 inputs (.ok s2.buffer s2.nw s2.staken)
  | fatalStep {pre post : List StepInput} {s2 : SState} {i : StepInput}
      {e : SamplerError} {buf : List (List ℚ)} :
      initCheck cfg nw0 = .ok () →
      Run cfg (initState nw0 cfg.model cfg.sched) pre s2 →
      Step cfg s2 i (.fatal e buf) →
      WrapperRun cfg nw0 (pre ++ i :: post) (.fail e buf)

/-! ### Basic lemmas about counters and the canonical key -/

lemma getD_set_self (l : List Nat) (i x : Nat) (h : i < l.length) :
    (l.set i x).getD i 0 = x := by
  rw [List.getD_eq_getElem?_getD, List.getElem?_set_self]
  · rfl
  · simpa using h

lemma getD_set_ne (l : List Nat) (i v x : Nat) (h : v ≠ i) :
    (l.set i x).getD v 0 = l.getD v 0 := by
  rw [List.getD_eq_getElem?_getD, List.getElem?_set_ne (by omega),
    ← List.getD_eq_getElem?_getD]

lemma length_incAt (l : List Nat) (i : Nat) : (incAt l i).length = l.length :=
  List.length_set l i _

lemma length_decAt (l : List Nat) (i : Nat) : (decAt l i).length = l.length :=
  List.length_set l i _

lemma getD_incAt_self (l : List Nat) (i : Nat) (h : i < l.length) :
    (incAt l i).getD i 0 = l.getD i 0 + 1 := getD_set_self l i _ h

lemma getD_incAt_ne (l : List Nat) (i v : Nat) (h : v ≠ i) :
    (incAt l i).getD v 0 = l.getD v 0 := getD_set_ne l i v _ h

lemma getD_decAt_self (l : List Nat) (i : Nat) (h : i < l.length) :
    (decAt l i).getD i 0 = l.getD i 0 - 1 := getD_set_self l i _ h

lemma getD_decAt_ne (l : List Nat) (i v : Nat) (h : v ≠ i) :
    (decAt l i).getD v 0 = l.getD v 0 := getD_set_ne l i v _ h

lemma canon_idem (d : Bool) (e : Edge) : canon d (canon d e) = canon d e := by
  unfold canon
  by_cases hd : d = true
  · simp [hd]
  · simp only [Bool.not_eq_true] at hd
    subst hd
    simp only [Bool.false_eq_true, if_false]
    by_cases h : e.head ≤ e.tail
    · simp [h]
    · simp only [h, if_false]
      have : e.tail ≤ e.head := le_of_lt (Nat.lt_of_not_le h)
      simp [this]

lemma canon_props (d : Bool) (e : Edge) :
    ((canon d e).head = e.head ∧ (canon d e).tail = e.tail) ∨
    ((canon d e).head = e.tail ∧ (canon d e).tail = e.head) := by
  unfold canon
  by_cases hd : d = true
  · simp [hd]
  · simp only [Bool.not_eq_true] at hd
    subst hd
    by_cases h : e.head ≤ e.tail <;> simp [h]

lemma canon_valid (nw : Network) (e0 : Edge) (h : validToggle nw e0) :
    (canon nw.directed e0).head ≠ (canon nw.directed e0).tail ∧
      (canon nw.directed e0).head < nw.nnodes ∧
      (canon nw.directed e0).tail < nw.nnodes := by
  obtain ⟨hne, hh, ht, -⟩ := h
  rcases canon_props nw.directed e0 with ⟨h1, h2⟩ | ⟨h1, h2⟩ <;>
    rw [h1, h2] <;> exact ⟨by omega, by omega, by omega⟩

/-! ### The toggle operation: fields, membership, degrees -/

lemma toggle_nnodes (nw : Network) (e0 : Edge) :
    (nw.toggleEdge e0).nnodes = nw.nnodes := by
  simp only [Network.toggleEdge]; split <;> rfl

lemma toggle_directed (nw : Network) (e0 : Edge) :
    (nw.toggleEdge e0).directed = nw.directed := by
  simp only [Network.toggleEdge]; split <;> rfl

lemma toggle_bipartite (nw : Network) (e0 : Edge) :
    (nw.toggleEdge e0).bipartite = nw.bipartite := by
  simp only [Network.toggleEdge]; split <;> rfl

lemma mem_toggle_self (nw : Network) (e0 : Edge) :
    canon nw.directed e0 ∈ (nw.toggleEdge e0).edges ↔
      canon nw.directed e0 ∉ nw.edges := by
  simp only [Network.toggleEdge]
  split
  · next h => simp [Finset.not_mem_erase, h]
  · next h => simp [Finset.mem_insert_self, h]

lemma mem_toggle_ne (nw : Network) (e0 k : Edge) (h : k ≠ canon nw.directed e0) :
    (k ∈ (nw.toggleEdge e0).edges) ↔ k ∈ nw.edges := by
  simp only [Network.toggleEdge]
  split
  · simp [Finset.mem_erase, h]
  · simp [Finset.mem_insert, h]

lemma degOut_toggle_ne (nw : Network) (e0 : Edge) (v : Nat)
    (h : v ≠ (canon nw.directed e0).head) :
    (nw.toggleEdge e0).degOut v = nw.degOut v := by
  simp only [Network.toggleEdge]
  split <;> simp only [Network.degOut] <;>
    [exact getD_decAt_ne _ _ _ h; exact getD_incAt_ne _ _ _ h]

lemma degIn_toggle_ne (nw : Network) (e0 : Edge) (v : Nat)
    (h : v ≠ (canon nw.directed e0).tail) :
    (nw.toggleEdge e0).degIn v = nw.degIn v := by
  simp only [Network.toggleEdge]
  split <;> simp only [Network.degIn] <;>
    [exact getD_decAt_ne _ _ _ h; exact getD_incAt_ne _ _ _ h]

/-! ### Preservation of structural well-formedness and degree consistency -/

lemma validToggle_toggle (nw : Network) (e0 e1 : Edge) :
    validToggle (nw.toggleEdge e1) e0 ↔ validToggle nw e0 := by
  unfold validToggle
  rw [toggle_nnodes, toggle_bipartite]

lemma wfNet_toggle (nw : Network) (e0 : Edge) (hwf : nw.wfNet)
    (hv : validToggle nw e0) : (nw.toggleEdge e0).wfNet := by
  obtain ⟨hlo, hli, hmem⟩ := hwf
  obtain ⟨hcne, hch, hct⟩ := canon_valid nw e0 hv
  refine ⟨?_, ?_, ?_⟩
  · rw [show (nw.toggleEdge e0).outdeg.length = nw.outdeg.length by
      simp only [Network.toggleEdge]; split <;>
        [exact length_decAt _ _; exact length_incAt _ _],
      hlo, toggle_nnodes]
  · rw [show (nw.toggleEdge e0).indeg.length = nw.indeg.length by
      simp only [Network.toggleEdge]; split <;>
        [exact length_decAt _ _; exact length_incAt _ _],
      hli, toggle_nnodes]
  · intro e he
    rw [toggle_nnodes, toggle_directed]
    by_cases hk : e = canon nw.directed e0
    · subst hk
      exact ⟨canon_idem _ _, hcne, hch, hct⟩
    · exact hmem e ((mem_toggle_ne nw e0 e hk).mp he)

lemma degConsistent_toggle (nw : Network) (e0 : Edge) (hwf : nw.wfNet)
    (hdc : nw.degConsistent) (hv : validToggle nw e0) :
    (nw.toggleEdge e0).degConsistent := by
  obtain ⟨hlo, hli, hmemwf⟩ := hwf
  obtain ⟨hcne, hch, hct⟩ := canon_valid nw e0 hv
  set e := canon nw.directed e0 with he
  intro v hvlt
  rw [toggle_nnodes] at hvlt
  obtain ⟨hout, hin⟩ := hdc v hvlt
  constructor
  · -- out-degree counter versus edges whose canonical head is `v`
    by_cases hvh : v = e.head
    · subst hvh
      simp only [Network.toggleEdge, ← he]
      split
      · next hmem =>
        have hmemf : e ∈ nw.edges.filter (fun x => x.head = e.head) :=
          Finset.mem_filter.mpr ⟨hmem, rfl⟩
        simp only [Network.degOut, Finset.filter_erase]
        rw [getD_decAt_self _ _ (by rw [hlo]; exact hch),
          Finset.card_erase_of_mem hmemf]
        exact congrArg (· - 1) hout
      · next hmem =>
        have hnm : e ∉ nw.edges.filter (fun x => x.head = e.head) :=
          fun hc => hmem (Finset.mem_filter.mp hc).1
        simp only [Network.degOut, Finset.filter_insert]
        simp only [if_true]
        rw [getD_incAt_self _ _ (by rw [hlo]; exact hch),
          Finset.card_insert_of_not_mem hnm]
        exact congrArg (· + 1) hout
    · have hedges : ((nw.toggleEdge e0).edges.filter (fun x => x.head = v)).card
          = (nw.edges.filter (fun x => x.head = v)).card := by
        simp only [Network.toggleEdge, ← he]
        split
        · rw [Finset.filter_erase,
            Finset.erase_eq_of_not_mem (fun hc => hvh ((Finset.mem_filter.mp hc).2).symm)]
        · rw [Finset.filter_insert, if_neg (fun hc => hvh hc.symm)]
      rw [hedges, degOut_toggle_ne nw e0 v hvh, hout]
  · -- in-degree counter versus edges whose canonical tail is `v`
    by_cases hvt : v = e.tail
    · subst hvt
      simp only [Network.toggleEdge, ← he]
      split
      · next hmem =>
        have hmemf : e ∈ nw.edges.filter (fun x => x.tail = e.tail) :=
          Finset.mem_filter.mpr ⟨hmem, rfl⟩
        simp only [Network.degIn, Finset.filter_erase]
        rw [getD_decAt_self _ _ (by rw [hli]; exact hct),
          Finset.card_erase_of_mem hmemf]
        exact congrArg (· - 1) hin
      · next hmem =>
        have hnm : e ∉ nw.edges.filter (fun x => x.tail = e.tail) :=
          fun hc => hmem (Finset.mem_filter.mp hc).1
        simp only [Network.degIn, Finset.filter_insert]
        simp only [if_true]
        rw [getD_incAt_self _ _ (by rw [hli]; exact hct),
          Finset.card_insert_of_not_mem hnm]
        exact congrArg (· + 1) hin
    · have hedges : ((nw.toggleEdge e0).edges.filter (fun x => x.tail = v)).card
          = (nw.edges.filter (fun x => x.tail = v)).card := by
        simp only [Network.toggleEdge, ← he]
        split
        · rw [Finset.filter_erase,
            Finset.erase_eq_of_not_mem (fun hc => hvt ((Finset.mem_filter.mp hc).2).symm)]
        · rw [Finset.filter_insert, if_neg (fun hc => hvt hc.symm)]
      rw [hedges, degIn_toggle_ne nw e0 v hvt, hin]

/-! ### Degree bounds under toggling -/

lemma nodeOK_toggle_untouched (bd : DegreeBound) (nw : Network) (e0 : Edge)
    (v : Nat) (hh : v ≠ e0.head) (ht : v ≠ e0.tail) :
    nodeOK bd (nw.toggleEdge e0) v = nodeOK bd nw v := by
  have hch : v ≠ (canon nw.directed e0).head := by
    rcases canon_props nw.directed e0 with ⟨h1, -⟩ | ⟨h1, -⟩ <;> rw [h1] <;> assumption
  have hct : v ≠ (canon nw.directed e0).tail := by
    rcases canon_props nw.directed e0 with ⟨-, h2⟩ | ⟨-, h2⟩ <;> rw [h2] <;> assumption
  simp only [nodeOK, Network.degTotal, toggle_directed,
    degOut_toggle_ne nw e0 v hch, degIn_toggle_ne nw e0 v hct]

lemma withinBounds_toggle (bd : DegreeBound) (nw : Network) (e0 : Edge)
    (hb : withinBounds bd nw = true) (hf : edgeFeasible bd nw e0 = true) :
    withinBounds bd (nw.toggleEdge e0) = true := by
  have hfh : nodeOK bd (nw.toggleEdge e0) e0.head = true :=
    (Bool.and_eq_true _ _ |>.mp hf).1
  have hft : nodeOK bd (nw.toggleEdge e0) e0.tail = true :=
    (Bool.and_eq_true _ _ |>.mp hf).2
  rw [withinBounds, List.all_eq_true] at hb ⊢
  intro v hv
  rw [toggle_nnodes] at hv
  by_cases hh : v = e0.head
  · subst hh; exact hfh
  · by_cases ht : v = e0.tail
    · subst ht; exact hft
    · rw [nodeOK_toggle_untouched bd nw e0 v hh ht]
      exact hb v hv

/-! ### Degree preservation (exact-degree mode) -/

lemma degPreserved_refl (nw : Network) : degPreserved nw nw = true := by
  unfold degPreserved
  split <;> simp

lemma degPreserved_trans (a b c : Network) (hD : b.directed = a.directed)
    (hN : b.nnodes = a.nnodes) (hab : degPreserved a b = true)
    (hbc : degPreserved b c = true) : degPreserved a c = true := by
  unfold degPreserved at *
  rw [hD, hN] at hbc
  cases hd : a.directed with
  | true =>
    simp only [hd, eq_self_iff_true, if_true, Bool.and_eq_true,
      decide_eq_true_eq] at hab hbc ⊢
    exact ⟨by rw [hbc.1, hab.1], by rw [hbc.2, hab.2]⟩
  | false =>
    simp only [hd, Bool.false_eq_true, if_false, List.all_eq_true,
      decide_eq_true_eq] at hab hbc ⊢
    intro v hv
    rw [hbc v hv, hab v hv]

lemma nodeOK_of_degPreserved (bd : DegreeBound) (ref nw : Network)
    (hD : nw.directed = ref.directed) (hp : degPreserved ref nw = true)
    (v : Nat) (hv : v < ref.nnodes) : nodeOK bd nw v = nodeOK bd ref v := by
  unfold degPreserved at hp
  unfold nodeOK
  rw [hD]
  cases hd : ref.directed with
  | true =>
    simp only [hd, eq_self_iff_true, if_true, Bool.and_eq_true,
      decide_eq_true_eq] at hp
    simp only [eq_self_iff_true, if_true, Network.degIn, Network.degOut, hp.1, hp.2]
  | false =>
    simp only [hd, Bool.false_eq_true, if_false, List.all_eq_true,
      decide_eq_true_eq] at hp
    have h1 := hp v (List.mem_range.mpr hv)
    simp only [Bool.false_eq_true, if_false, h1]

lemma withinBounds_of_degPreserved (bd : DegreeBound) (ref nw : Network)
    (hD : nw.directed = ref.directed) (hN : nw.nnodes = ref.nnodes)
    (hb : withinBounds bd ref = true) (hp : degPreserved ref nw = true) :
    withinBounds bd nw = true := by
  rw [withinBounds, List.all_eq_true] at hb ⊢
  intro v hv
  rw [hN] at hv
  rw [nodeOK_of_degPreserved bd ref nw hD hp v (List.mem_range.mp hv)]
  exact hb v hv

/-! ### Applying a toggle set -/

lemma applyToggles_cons (nw : Network) (e : Edge) (es : List Edge) :
    applyToggles nw (e :: es) = applyToggles (nw.toggleEdge e) es := rfl

lemma applyToggles_fields (es : List Edge) : ∀ nw : Network,
    (applyToggles nw es).nnodes = nw.nnodes ∧
    (applyToggles nw es).directed = nw.directed ∧
    (applyToggles nw es).bipartite = nw.bipartite := by
  induction es with
  | nil => exact fun nw => ⟨rfl, rfl, rfl⟩
  | cons e es ih =>
    intro nw
    obtain ⟨h1, h2, h3⟩ := ih (nw.toggleEdge e)
    rw [applyToggles_cons, h1, h2, h3, toggle_nnodes, toggle_directed, toggle_bipartite]
    exact ⟨rfl, rfl, rfl⟩

lemma graphInv_applyToggles (es : List Edge) : ∀ nw : Network, nw.wfNet →
    nw.degConsistent → (∀ e ∈ es, validToggle nw e) →
    (applyToggles nw es).wfNet ∧ (applyToggles nw es).degConsistent := by
  induction es with
  | nil => exact fun nw hwf hdc _ => ⟨hwf, hdc⟩
  | cons e es ih =>
    intro nw hwf hdc hv
    rw [applyToggles_cons]
    have hve : validToggle nw e := hv e (List.mem_cons_self e es)
    exact ih (nw.toggleEdge e) (wfNet_toggle nw e hwf hve)
      (degConsistent_toggle nw e hwf hdc hve)
      (fun e1 he1 => (validToggle_toggle nw e1 e).mpr (hv e1 (List.mem_cons_of_mem e he1)))

/-! ### Bookkeeping projections -/

lemma tick_nw (sc : Sched) (s : SState) : (tick sc s).nw = s.nw := by
  rcases s with ⟨nw, stats, ph, ctr, buf, st⟩
  cases ph <;> simp only [tick] <;> split <;> rfl

lemma tick_stats (sc : Sched) (s : SState) : (tick sc s).stats = s.stats := by
  rcases s with ⟨nw, stats, ph, ctr, buf, st⟩
  cases ph <;> simp only [tick] <;> split <;> rfl

lemma tick_staken (sc : Sched) (s : SState) : (tick sc s).staken = s.staken := by
  rcases s with ⟨nw, stats, ph, ctr, buf, st⟩
  cases ph <;> simp only [tick] <;> split <;> rfl

/-! ### Telescoping of the incremental statistics -/

lemma length_evalAll (m : Model) (nw : Network) :
    (evalAll m nw).length = m.length := List.length_map m _

lemma addVec_replicate_zero (a : List ℚ) :
    addVec a (List.replicate a.length 0) = a := by
  induction a with
  | nil => rfl
  | cons x xs ih =>
    simp only [addVec, List.replicate, List.length_cons, List.zipWith_cons_cons, add_zero]
    rw [show List.zipWith (fun x y => x + y) xs (List.replicate xs.length 0) = xs from ih]

lemma addVec_assoc (a : List ℚ) : ∀ b c : List ℚ,
    addVec (addVec a b) c = addVec a (addVec b c) := by
  induction a with
  | nil => intro b c; rfl
  | cons x xs ih =>
    intro b c
    cases b with
    | nil => rfl
    | cons y ys =>
      cases c with
      | nil => rfl
      | cons z zs =>
        simp only [addVec, List.zipWith_cons_cons, add_assoc]
        rw [show List.zipWith (fun u v => u + v)
          (List.zipWith (fun u v => u + v) xs ys) zs
            = List.zipWith (fun u v => u + v) xs (List.zipWith (fun u v => u + v) ys zs)
          from ih ys zs]

lemma evalAll_toggle (m : Model) (nw : Network) (e : Edge) :
    evalAll m (nw.toggleEdge e) = addVec (evalAll m nw) (changeAll m nw e) := by
  induction m with
  | nil => rfl
  | cons f fs ih =>
    simp only [evalAll, changeAll, addVec, List.map_cons, List.zipWith_cons_cons]
      at ih ⊢
    exact List.cons_eq_cons.mpr ⟨by rw [changeStat]; ring, ih⟩

lemma evalAll_applyToggles (m : Model) (es : List Edge) : ∀ nw : Network,
    evalAll m (applyToggles nw es) = addVec (evalAll m nw) (changeStats m nw es) := by
  induction es with
  | nil =>
    intro nw
    rw [changeStats, show applyToggles nw [] = nw from rfl,
      ← length_evalAll m nw, addVec_replicate_zero]
  | cons e es ih =>
    intro nw
    rw [applyToggles_cons, ih (nw.toggleEdge e), evalAll_toggle, addVec_assoc, changeStats]

/-! ### Chain invariants and their preservation -/

/-- The structural fields of the graph store never change over the run. -/
def FieldsEq (nw0 nw : Network) : Prop :=
  nw.nnodes = nw0.nnodes ∧ nw.directed = nw0.directed ∧ nw.bipartite = nw0.bipartite

/-- Structural invariant of the chain: fixed fields, well-formed store,
consistent degree counters. -/
def GraphInv (nw0 : Network) (s : SState) : Prop :=
  FieldsEq nw0 s.nw ∧ s.nw.wfNet ∧ s.nw.degConsistent

/-- Bound invariant of the chain: every node inside its bound, and in
exact-degree mode the degree sequence of the initial graph preserved. -/
def BoundsInv (cfg : Config) (nw0 : Network) (s : SState) : Prop :=
  FieldsEq nw0 s.nw ∧ withinBounds cfg.bd s.nw = true ∧
    (cfg.bd.condAllDegExact = true → degPreserved nw0 s.nw = true)

/-- Statistics invariant of the chain: the accumulated vector equals the
terms evaluated fresh against the current graph store. -/
def StatsInv (cfg : Config) (s : SState) : Prop :=
  s.stats = evalAll cfg.model s.nw

lemma graphInv_of_nw_eq (nw0 : Network) (s t : SState) (h : t.nw = s.nw)
    (hs : GraphInv nw0 s) : GraphInv nw0 t := by
  unfold GraphInv at hs ⊢
  rw [h]
  exact hs

lemma boundsInv_of_nw_eq (cfg : Config) (nw0 : Network) (s t : SState)
    (h : t.nw = s.nw) (hs : BoundsInv cfg nw0 s) : BoundsInv cfg nw0 t := by
  unfold BoundsInv at hs ⊢
  rw [h]
  exact hs

lemma graphInv_step (cfg : Config) (nw0 : Network) (s s1 : SState) (i : StepInput)
    (hinv : GraphInv nw0 s) (hstep : Step cfg s i (.next s1)) : GraphInv nw0 s1 := by
  cases hstep with
  | exhausted r hnd => exact graphInv_of_nw_eq nw0 s _ (tick_nw _ _) hinv
  | illFormed p r hnd hwfp => exact graphInv_of_nw_eq nw0 s _ (tick_nw _ _) hinv
  | infeasible p r hnd hwfp hfeas => exact graphInv_of_nw_eq nw0 s _ (tick_nw _ _) hinv
  | rejected p r hnd hwfp hfeas hacc => exact graphInv_of_nw_eq nw0 s _ (tick_nw _ _) hinv
  | accepted p r hnd hwfp hfeas hacc hcap =>
    obtain ⟨hf, hwf, hdc⟩ := hinv
    refine graphInv_of_nw_eq nw0 _ _ (tick_nw _ _) ?_
    obtain ⟨h1, h2, h3⟩ := applyToggles_fields p.toggles s.nw
    obtain ⟨h4, h5⟩ := graphInv_applyToggles p.toggles s.nw hwf hdc hwfp.2.2.2.2
    exact ⟨⟨by rw [h1, hf.1], by rw [h2, hf.2.1], by rw [h3, hf.2.2]⟩, h4, h5⟩

lemma boundsInv_step (cfg : Config) (nw0 : Network) (s s1 : SState) (i : StepInput)
    (hinv : BoundsInv cfg nw0 s) (hstep : Step cfg s i (.next s1)) :
    BoundsInv cfg nw0 s1 := by
  cases hstep with
  | exhausted r hnd => exact boundsInv_of_nw_eq cfg nw0 s _ (tick_nw _ _) hinv
  | illFormed p r hnd hwfp => exact boundsInv_of_nw_eq cfg nw0 s _ (tick_nw _ _) hinv
  | infeasible p r hnd hwfp hfeas =>
    exact boundsInv_of_nw_eq cfg nw0 s _ (tick_nw _ _) hinv
  | rejected p r hnd hwfp hfeas hacc =>
    exact boundsInv_of_nw_eq cfg nw0 s _ (tick_nw _ _) hinv
  | accepted p r hnd hwfp hfeas hacc hcap =>
    obtain ⟨hf, hwb, hex⟩ := hinv
    refine boundsInv_of_nw_eq cfg nw0 _ _ (tick_nw _ _) ?_
    obtain ⟨h1, h2, h3⟩ := applyToggles_fields p.toggles s.nw
    cases hx : cfg.bd.condAllDegExact with
    | false =>
      -- non-exact mode: the toggle set is a single feasible toggle
      obtain ⟨e, he⟩ := List.length_eq_one.mp (hwfp.2.2.1 hx)
      rw [setFeasible, hx] at hfeas
      simp only [Bool.false_eq_true, if_false, he, List.all_cons, List.all_nil,
        Bool.and_true] at hfeas
      rw [he]
      have hb1 : withinBounds cfg.bd (applyToggles s.nw [e]) = true := by
        rw [show applyToggles s.nw [e] = s.nw.toggleEdge e from rfl]
        exact withinBounds_toggle cfg.bd s.nw e hwb hfeas
      refine ⟨?_, hb1, fun hc => absurd (hx ▸ hc) (by simp)⟩
      rw [he] at h1 h2 h3
      exact ⟨by rw [h1, hf.1], by rw [h2, hf.2.1], by rw [h3, hf.2.2]⟩
    | true =>
      -- exact-degree mode: the whole set preserves every degree
      rw [setFeasible, hx, if_pos rfl] at hfeas
      have hpres0 : degPreserved nw0 s.nw = true := hex hx
      have htr : degPreserved nw0 (applyToggles s.nw p.toggles) = true :=
        degPreserved_trans nw0 s.nw (applyToggles s.nw p.toggles)
          hf.2.1 hf.1 hpres0 hfeas
      have hwb1 : withinBounds cfg.bd (applyToggles s.nw p.toggles) = true :=
        withinBounds_of_degPreserved cfg.bd s.nw (applyToggles s.nw p.toggles)
          h2 h1 hwb hfeas
      exact ⟨⟨by rw [h1, hf.1], by rw [h2, hf.2.1], by rw [h3, hf.2.2]⟩,
        hwb1, fun _ => htr⟩

lemma statsInv_step (cfg : Config) (s s1 : SState) (i : StepInput)
    (hinv : StatsInv cfg s) (hstep : Step cfg s i (.next s1)) : StatsInv cfg s1 := by
  cases hstep with
  | exhausted r hnd => unfold StatsInv at hinv ⊢; rw [tick_nw, tick_stats]; exact hinv
  | illFormed p r hnd hwfp =>
    unfold StatsInv at hinv ⊢; rw [tick_nw, tick_stats]; exact hinv
  | infeasible p r hnd hwfp hfeas =>
    unfold StatsInv at hinv ⊢; rw [tick_nw, tick_stats]; exact hinv
  | rejected p r hnd hwfp hfeas hacc =>
    unfold StatsInv at hinv ⊢; rw [tick_nw, tick_stats]; exact hinv
  | accepted p r hnd hwfp hfeas hacc hcap =>
    unfold StatsInv at hinv ⊢
    rw [tick_nw, tick_stats]
    show addVec s.stats (changeStats cfg.model s.nw p.toggles)
      = evalAll cfg.model (applyToggles s.nw p.toggles)
    rw [hinv, evalAll_applyToggles]

lemma run_preserve {cfg : Config} {P : SState → Prop}
    (hstep : ∀ s i s1, P s → Step cfg s i (.next s1) → P s1) :
    ∀ {s : SState} {inputs : List StepInput} {s2 : SState},
      Run cfg s inputs s2 → P s → P s2 := by
  intro s inputs s2 hrun
  induction hrun with
  | nil => exact id
  | cons h1 h2 ih => exact fun hp => ih (hstep _ _ _ hp h1)

/-! ### The driver schedule invariant -/

/-- Invariant tying the driver phase, the step counter and the sample
buffer to the number `k` of completed steps: the chain burns in for the
first `burnin` steps, then records a sample every `interval`-th step
until the buffer holds `samplesize` vectors. -/
def SchedInv (sc : Sched) (k : Nat) (s : SState) : Prop :=
  match s.phase with
  | .burnIn => k < sc.burnin ∧ s.ctr = k ∧ s.buffer = []
  | .sampling => sc.burnin + sc.interval * s.buffer.length + s.ctr = k ∧
      s.ctr < sc.interval ∧ s.buffer.length < sc.samplesize
  | .done => k = sc.burnin + sc.samplesize * sc.interval ∧
      s.buffer.length = sc.samplesize

lemma schedInv_tick (sc : Sched) (k : Nat) (s : SState) (hi : 1 ≤ sc.interval)
    (hs : 1 ≤ sc.samplesize) (hnd : s.phase ≠ .done) (hinv : SchedInv sc k s) :
    SchedInv sc (k + 1) (tick sc s) := by
  rcases s with ⟨nw, stats, ph, ctr, buf, st⟩
  cases ph with
  | done => exact absurd rfl hnd
  | burnIn =>
    obtain ⟨h1, h2, h3⟩ := hinv
    dsimp only at h1 h2 h3
    subst h3
    simp only [tick]
    by_cases hb : ctr + 1 = sc.burnin
    · rw [if_pos hb]
      unfold SchedInv
      dsimp only
      simp only [List.length_nil, Nat.mul_zero, Nat.add_zero]
      exact ⟨by omega, hi, hs⟩
    · rw [if_neg hb]
      unfold SchedInv
      dsimp only
      exact ⟨by omega, by omega, rfl⟩
  | sampling =>
    obtain ⟨h1, h2, h3⟩ := hinv
    dsimp only at h1 h2 h3
    simp only [tick]
    by_cases hc : ctr + 1 = sc.interval
    · rw [if_pos hc]
      have hlen : (buf ++ [stats]).length = buf.length + 1 := by simp
      by_cases hbuf : (buf ++ [stats]).length = sc.samplesize
      · rw [if_pos hbuf]
        unfold SchedInv
        dsimp only
        refine ⟨?_, hbuf⟩
        rw [hlen] at hbuf
        rw [← hbuf, Nat.succ_mul]
        rw [Nat.mul_comm sc.interval buf.length] at h1
        generalize hL : buf.length * sc.interval = L at h1 ⊢
        omega
      · rw [if_neg hbuf]
        unfold SchedInv
        dsimp only
        rw [hlen] at hbuf
        refine ⟨?_, hi, ?_⟩
        · rw [hlen, Nat.mul_succ]
          generalize hL : sc.interval * buf.length = L at h1 ⊢
          omega
        · rw [hlen]
          omega
    · rw [if_neg hc]
      unfold SchedInv
      dsimp only
      refine ⟨?_, by omega, h3⟩
      generalize hL : sc.interval * buf.length = L at h1 ⊢
      omega

lemma schedInv_step (cfg : Config) (k : Nat) (s s1 : SState) (i : StepInput)
    (hi : 1 ≤ cfg.sched.interval) (hs : 1 ≤ cfg.sched.samplesize)
    (hinv : SchedInv cfg.sched k s) (hstep : Step cfg s i (.next s1)) :
    SchedInv cfg.sched (k + 1) s1 := by
  cases hstep with
  | exhausted r hnd => exact schedInv_tick _ _ _ hi hs hnd hinv
  | illFormed p r hnd hwfp => exact schedInv_tick _ _ _ hi hs hnd hinv
  | infeasible p r hnd hwfp hfeas => exact schedInv_tick _ _ _ hi hs hnd hinv
  | rejected p r hnd hwfp hfeas hacc => exact schedInv_tick _ _ _ hi hs hnd hinv
  | accepted p r hnd hwfp hfeas hacc hcap => exact schedInv_tick _ _ _ hi hs hnd hinv

lemma schedInv_run (cfg : Config) (hi : 1 ≤ cfg.sched.interval)
    (hs : 1 ≤ cfg.sched.samplesize) {s : SState} {inputs : List StepInput}
    {s2 : SState} (hrun : Run cfg s inputs s2) :
    ∀ k : Nat, SchedInv cfg.sched k s → SchedInv cfg.sched (k + inputs.length) s2 := by
  induction hrun with
  | nil => intro k h; simpa using h
  | @cons sa s1 sb i rest h1 h2 ih =>
    intro k h
    have hst := schedInv_step cfg k sa s1 i hi hs h h1
    have h3 := ih (k + 1) hst
    have heq : k + (i :: rest).length = k + 1 + rest.length := by
      simp only [List.length_cons]
      omega
    rw [heq]
    exact h3

lemma schedInv_zero (nw0 : Network) (m : Model) (sc : Sched)
    (hi : 1 ≤ sc.interval) (hs : 1 ≤ sc.samplesize) :
    SchedInv sc 0 (initState nw0 m sc) := by
  unfold initState
  rw [if_neg (by omega : ¬ sc.samplesize = 0)]
  by_cases hb : sc.burnin = 0
  · rw [if_pos hb]
    unfold SchedInv
    dsimp only
    simp only [List.length_nil, Nat.mul_zero, Nat.add_zero, hb]
    exact ⟨trivial, hi, hs⟩
  · rw [if_neg hb]
    unfold SchedInv
    dsimp only
    exact ⟨by omega, rfl, rfl⟩

/-! ### Acceptance mutates the store; staken accounting -/

lemma applyToggles_ne (nw : Network) (es : List Edge) (hne : es ≠ [])
    (hlen : es.length ≤ 2) (hnd : (es.map (canon nw.directed)).Nodup) :
    applyToggles nw es ≠ nw := by
  cases es with
  | nil => exact absurd rfl hne
  | cons e rest =>
    cases rest with
    | nil =>
      intro hcontra
      have h := mem_toggle_self nw e
      rw [show applyToggles nw [e] = nw.toggleEdge e from rfl] at hcontra
      rw [hcontra] at h
      exact iff_not_self h
    | cons e2 rest2 =>
      cases rest2 with
      | nil =>
        intro hcontra
        simp only [List.map_cons, List.map_nil] at hnd
        have hk : canon nw.directed e ≠ canon nw.directed e2 := by
          have hn := List.nodup_cons.mp hnd
          intro hq
          exact hn.1 (by simp [hq])
        have hd1 : (nw.toggleEdge e).directed = nw.directed := toggle_directed nw e
        have hiff : canon nw.directed e ∈ (applyToggles nw [e, e2]).edges ↔
            canon nw.directed e ∉ nw.edges := by
          rw [show applyToggles nw [e, e2] = (nw.toggleEdge e).toggleEdge e2 from rfl,
            mem_toggle_ne (nw.toggleEdge e) e2 (canon nw.directed e) (by rw [hd1]; exact hk)]
          exact mem_toggle_self nw e
        rw [hcontra] at hiff
        exact iff_not_self hiff
      | cons e3 rest3 =>
        exfalso
        simp only [List.length_cons] at hlen
        omega

lemma staken_step (cfg : Config) (s s1 : SState) (i : StepInput)
    (hstep : Step cfg s i (.next s1)) :
    (s1.staken = s.staken + 1 ∧ s1.nw ≠ s.nw) ∨
      (s1.staken = s.staken ∧ s1.nw = s.nw) := by
  cases hstep with
  | exhausted r hnd => exact Or.inr ⟨tick_staken _ _, tick_nw _ _⟩
  | illFormed p r hnd hwfp => exact Or.inr ⟨tick_staken _ _, tick_nw _ _⟩
  | infeasible p r hnd hwfp hfeas => exact Or.inr ⟨tick_staken _ _, tick_nw _ _⟩
  | rejected p r hnd hwfp hfeas hacc => exact Or.inr ⟨tick_staken _ _, tick_nw _ _⟩
  | accepted p r hnd hwfp hfeas hacc hcap =>
    refine Or.inl ⟨by rw [tick_staken], ?_⟩
    rw [tick_nw]
    exact applyToggles_ne s.nw p.toggles hwfp.1 hwfp.2.1 hwfp.2.2.2.1

lemma staken_run (cfg : Config) {s : SState} {inputs : List StepInput}
    {s2 : SState} (hrun : Run cfg s inputs s2) :
    s.staken ≤ s2.staken ∧ s2.staken ≤ s.staken + inputs.length := by
  induction hrun with
  | nil => simp
  | @cons sa s1 sb i rest h1 h2 ih =>
    obtain ⟨ih1, ih2⟩ := ih
    rcases staken_step cfg sa s1 i h1 with ⟨h, -⟩ | ⟨h, -⟩ <;>
      exact ⟨by omega, by simp only [List.length_cons]; omega⟩

/-! ### Initialization failures -/

lemma withinBounds_false (bd : DegreeBound) (nw : Network) (v : Nat)
    (hv : v < nw.nnodes) (hbad : nodeOK bd nw v = false) :
    withinBounds bd nw = false := by
  cases hall : withinBounds bd nw with
  | false => rfl
  | true =>
    rw [withinBounds, List.all_eq_true] at hall
    exact absurd (hall v (List.mem_range.mpr hv)) (by simp [hbad])

/-! ### The claims -/

/-- C1: after every step of every run that passed the initialization
check, every node's degree lies within its configured bound, and when
exact-degree mode is enabled every visited state — in particular every
state whose statistics are recorded — has exactly the per-node degree
sequence of the initial graph. -/
theorem claim_c1 (cfg : Config) (nw0 : Network) (inputs : List StepInput)
    (s2 : SState) (hinit : initCheck cfg nw0 = .ok ())
    (hrun : Run cfg (initState nw0 cfg.model cfg.sched) inputs s2) :
    withinBounds cfg.bd s2.nw = true ∧
      (cfg.bd.condAllDegExact = true → degPreserved nw0 s2.nw = true) := by
  have hwb : withinBounds cfg.bd nw0 = true := by
    cases hq : withinBounds cfg.bd nw0 with
    | true => rfl
    | false =>
      unfold initCheck at hinit
      rw [if_pos hq] at hinit
      exact nomatch hinit
  have h0 : BoundsInv cfg nw0 (initState nw0 cfg.model cfg.sched) :=
    ⟨⟨rfl, rfl, rfl⟩, hwb, fun _ => degPreserved_refl nw0⟩
  have h2 := run_preserve
    (fun s i s1 hp hs => boundsInv_step cfg nw0 s s1 i hp hs) hrun h0
  exact ⟨h2.2.1, h2.2.2⟩

/-- C2: for a step offered a well-formed, feasible proposal whose
application stays within the edge-count ceiling, the chain accepts — the
step continues with `staken` bumped — exactly when the uniform draw `r`
is below `min(1, exp(theta ⬝ delta) * hastingsRatio)`. -/
theorem claim_c2 (cfg : Config) (s : SState) (p : Proposal) (r : ℚ)
    (out : Outcome) (hstep : Step cfg s ⟨some p, r⟩ out)
    (hwfp : wfProposal cfg.bd s.nw p)
    (hfeas : setFeasible cfg.bd s.nw p.toggles = true)
    (hcap : (applyToggles s.nw p.toggles).edges.card ≤ cfg.maxedges) :
    (∃ s1, out = .next s1 ∧ s1.staken = s.staken + 1) ↔
      AcceptCond cfg.theta (changeStats cfg.model s.nw p.toggles) p.ratio r := by
  cases hstep with
  | illFormed p r hnd h => exact absurd hwfp h
  | infeasible p r hnd h hf =>
    rw [hfeas] at hf
    exact nomatch hf
  | rejected p r hnd h hf hacc =>
    constructor
    · rintro ⟨s1, hs1, hst⟩
      injection hs1 with h1
      rw [← h1, tick_staken] at hst
      exact absurd hst (by omega)
    · intro hc
      exact absurd hc hacc
  | capacity p r hnd h hf hacc hc => exact absurd hc (by omega)
  | accepted p r hnd h hf hacc hc =>
    constructor
    · intro _
      exact hacc
    · intro _
      exact ⟨_, rfl, by rw [tick_staken]⟩

/-- C3: a step that continues without bumping `staken` — a rejection, for
any reason — leaves the graph store (edge set and degree counters) and
the accumulated statistics vector exactly as they were. -/
theorem claim_c3 (cfg : Config) (s s1 : SState) (i : StepInput)
    (hstep : Step cfg s i (.next s1)) (hrej : s1.staken = s.staken) :
    s1.nw = s.nw ∧ s1.stats = s.stats := by
  cases hstep with
  | exhausted r hnd => exact ⟨tick_nw _ _, tick_stats _ _⟩
  | illFormed p r hnd hwfp => exact ⟨tick_nw _ _, tick_stats _ _⟩
  | infeasible p r hnd hwfp hfeas => exact ⟨tick_nw _ _, tick_stats _ _⟩
  | rejected p r hnd hwfp hfeas hacc => exact ⟨tick_nw _ _, tick_stats _ _⟩
  | accepted p r hnd hwfp hfeas hacc hcap =>
    rw [tick_staken] at hrej
    simp at hrej

/-- C4: the driver leaves burn-in after exactly `burnin` steps (accepted
or rejected alike), the sample buffer holds one statistics vector per
completed `interval`-sized block of sampling steps, and the run is in the
`Done` phase exactly when the buffer holds `samplesize` vectors. -/
theorem claim_c4 (cfg : Config) (nw0 : Network) (inputs : List StepInput)
    (s2 : SState) (hi : 1 ≤ cfg.sched.interval) (hs : 1 ≤ cfg.sched.samplesize)
    (hrun : Run cfg (initState nw0 cfg.model cfg.sched) inputs s2) :
    (inputs.length < cfg.sched.burnin → s2.phase = .burnIn) ∧
    (inputs.length = cfg.sched.burnin → s2.phase = .sampling) ∧
    s2.buffer.length = min cfg.sched.samplesize
      ((inputs.length - cfg.sched.burnin) / cfg.sched.interval) ∧
    (s2.phase = .done ↔ s2.buffer.length = cfg.sched.samplesize) := by
  have h0 := schedInv_zero nw0 cfg.model cfg.sched hi hs
  have hinv := schedInv_run cfg hi hs hrun 0 h0
  rw [Nat.zero_add] at hinv
  unfold SchedInv at hinv
  cases hph : s2.phase with
  | burnIn =>
    rw [hph] at hinv
    obtain ⟨h1, h2, h3⟩ := hinv
    refine ⟨fun _ => rfl, fun hq => absurd h1 (by omega), ?_, ?_⟩
    · rw [h3, List.length_nil, Nat.sub_eq_zero_of_le (le_of_lt h1),
        Nat.zero_div, Nat.min_zero]
    · constructor
      · intro hc
        exact nomatch hc
      · intro hc
        rw [h3, List.length_nil] at hc
        exact absurd hc.symm (by omega)
  | sampling =>
    rw [hph] at hinv
    obtain ⟨h1, h2, h3⟩ := hinv
    have hle : cfg.sched.burnin ≤ inputs.length := by
      generalize hL : cfg.sched.interval * s2.buffer.length = L at h1
      omega
    have hsub : inputs.length - cfg.sched.burnin
        = cfg.sched.interval * s2.buffer.length + s2.ctr := by
      generalize hL : cfg.sched.interval * s2.buffer.length = L at h1 ⊢
      omega
    refine ⟨fun hq => absurd hq (by omega), fun _ => rfl, ?_, ?_⟩
    · rw [hsub, Nat.mul_add_div (by omega), Nat.div_eq_of_lt h2, Nat.add_zero,
        Nat.min_eq_right (le_of_lt h3)]
    · constructor
      · intro hc
        exact nomatch hc
      · intro hc
        exact absurd hc (by omega)
  | done =>
    rw [hph] at hinv
    obtain ⟨h1, h2⟩ := hinv
    have hpos : 1 ≤ cfg.sched.samplesize * cfg.sched.interval := by
      have := Nat.mul_le_mul hs hi
      simpa using this
    refine ⟨?_, ?_, ?_, fun _ => h2, fun _ => rfl⟩
    · intro hq
      exact absurd hq (by
        generalize hL : cfg.sched.samplesize * cfg.sched.interval = L at h1 hpos
        omega)
    · intro hq
      exact absurd hq (by
        generalize hL : cfg.sched.samplesize * cfg.sched.interval = L at h1 hpos
        omega)
    · have hsub : inputs.length - cfg.sched.burnin
          = cfg.sched.samplesize * cfg.sched.interval := by
        generalize hL : cfg.sched.samplesize * cfg.sched.interval = L at h1
        omega
      rw [h2, hsub, Nat.mul_div_cancel _ (by omega), Nat.min_self]

/-- C5: after every step of the chain, the accumulated statistics vector
— maintained only by adding per-toggle deltas — equals the statistic
terms evaluated fresh against the current graph store. -/
theorem claim_c5 (cfg : Config) (nw0 : Network) (inputs : List StepInput)
    (s2 : SState)
    (hrun : Run cfg (initState nw0 cfg.model cfg.sched) inputs s2) :
    s2.stats = evalAll cfg.model s2.nw := by
  have h0 : StatsInv cfg (initState nw0 cfg.model cfg.sched) := rfl
  exact run_preserve (fun s i s1 hp hs => statsInv_step cfg s s1 i hp hs) hrun h0

/-- C6: after every step of a run started on a well-formed, consistent
graph, every in-degree and out-degree counter equals the number of stored
edges touching the node on that side. -/
theorem claim_c6 (cfg : Config) (nw0 : Network) (inputs : List StepInput)
    (s2 : SState) (hwf : nw0.wfNet) (hdc : nw0.degConsistent)
    (hrun : Run cfg (initState nw0 cfg.model cfg.sched) inputs s2) :
    s2.nw.degConsistent := by
  have h0 : GraphInv nw0 (initState nw0 cfg.model cfg.sched) :=
    ⟨⟨rfl, rfl, rfl⟩, hwf, hdc⟩
  exact (run_preserve
    (fun s i s1 hp hs => graphInv_step cfg nw0 s s1 i hp hs) hrun h0).2.2

/-- C7: a configuration in which some node's initial degree violates its
own bound makes every invocation of the sampler fail with
`InvalidConfiguration` at initialization, with zero samples produced. -/
theorem claim_c7 (cfg : Config) (nw0 : Network) (v : Nat)
    (inputs : List StepInput) (out : RunResult) (hv : v < nw0.nnodes)
    (hbad : nodeOK cfg.bd nw0 v = false)
    (hrun : WrapperRun cfg nw0 inputs out) :
    out = .fail .invalidConfiguration [] := by
  have hwb := withinBounds_false cfg.bd nw0 v hv hbad
  have hinit : initCheck cfg nw0 = .error .invalidConfiguration := by
    unfold initCheck
    rw [if_pos hwb]
  cases hrun with
  | initFail inputs h =>
    rw [hinit] at h
    injection h with h1
    rw [← h1]
  | finished h hrun2 =>
    rw [hinit] at h
    exact nomatch h
  | fatalStep h hrun2 hstep =>
    rw [hinit] at h
    exact nomatch h

/-- C8: an accepted move whose application would push the edge count above
the caller-supplied ceiling terminates the run with `CapacityExceeded`
before the toggle is applied, reporting the partially filled sample
buffer; and a ceiling below the initial edge count already fails at
initialization. -/
theorem claim_c8 :
    (∀ (cfg : Config) (s : SState) (p : Proposal) (r : ℚ) (out : Outcome),
      Step cfg s ⟨some p, r⟩ out →
      wfProposal cfg.bd s.nw p →
      setFeasible cfg.bd s.nw p.toggles = true →
      AcceptCond cfg.theta (changeStats cfg.model s.nw p.toggles) p.ratio r →
      cfg.maxedges < (applyToggles s.nw p.toggles).edges.card →
      out = .fatal .capacityExceeded s.buffer) ∧
    (∀ (cfg : Config) (nw0 : Network), withinBounds cfg.bd nw0 = true →
      cfg.maxedges < nw0.edges.card →
      initCheck cfg nw0 = .error .capacityExceeded) := by
  constructor
  · intro cfg s p r out hstep hwfp hfeas haccept hover
    cases hstep with
    | illFormed p r hnd h => exact absurd hwfp h
    | infeasible p r hnd h hf =>
      rw [hfeas] at hf
      exact nomatch hf
    | rejected p r hnd h hf hacc => exact absurd haccept hacc
    | capacity p r hnd h hf hacc hc => rfl
    | accepted p r hnd h hf hacc hc => exact absurd hover (by omega)
  · intro cfg nw0 hwb hcap
    unfold initCheck
    rw [if_neg (by rw [hwb]; exact fun hc => nomatch hc), if_pos hcap]

/-- C9: a step on which the proposal strategy is exhausted continues the
chain as a rejection: no fatal outcome, and the graph store, the
statistics vector and the accepted count are unchanged. -/
theorem claim_c9 (cfg : Config) (s : SState) (r : ℚ) (out : Outcome)
    (hstep : Step cfg s ⟨none, r⟩ out) :
    ∃ s1, out = .next s1 ∧ s1.nw = s.nw ∧ s1.stats = s.stats ∧
      s1.staken = s.staken := by
  cases hstep with
  | exhausted r hnd =>
    exact ⟨tick cfg.sched s, rfl, tick_nw _ _, tick_stats _ _, tick_staken _ _⟩

/-- C10: each continuing step bumps `staken` by one exactly when it
mutated the network, so over a whole run `staken` counts the accepted
steps and never exceeds the number of steps taken. -/
theorem claim_c10 :
    (∀ (cfg : Config) (s s1 : SState) (i : StepInput),
      Step cfg s i (.next s1) →
      (s1.staken = s.staken + 1 ∧ s1.nw ≠ s.nw) ∨
        (s1.staken = s.staken ∧ s1.nw = s.nw)) ∧
    (∀ (cfg : Config) (s : SState) (inputs : List StepInput) (s2 : SState),
      Run cfg s inputs s2 →
      s.staken ≤ s2.staken ∧ s2.staken ≤ s.staken + inputs.length) :=
  ⟨fun cfg s s1 i hstep => staken_step cfg s s1 i hstep,
   fun cfg _ _ _ hrun => staken_run cfg hrun⟩

/-! ### A concrete scenario instantiating the claims -/

/-- A 3-node undirected graph with the single edge 0–1. -/
def demoNw : Network :=
  { nnodes := 3, directed := false, bipartite := 0,
    edges := {⟨0, 1⟩}, outdeg := [1, 0, 0], indeg := [0, 1, 0] }

/-- One statistic term: the edge count. -/
def demoModel : Model := [fun nw => (nw.edges.card : ℚ)]

/-- Loose bounds: total degree between 0 and 2 on every node. -/
def demoBd : DegreeBound :=
  { bounds := [⟨0, 2, 0, 2⟩, ⟨0, 2, 0, 2⟩, ⟨0, 2, 0, 2⟩], condAllDegExact := false }

def demoSched : Sched := { burnin := 1, interval := 1, samplesize := 1 }

def demoCfg : Config :=
  { theta := [0], model := demoModel, bd := demoBd, sched := demoSched,
    maxedges := 3 }

def demoS0 : SState := initState demoNw demoModel demoSched

/-- Proposal: toggle (insert) the edge 1–2, with Hastings ratio 1. -/
def demoP : Proposal := { toggles := [⟨1, 2⟩], ratio := 1 }

/-- The state after accepting `demoP` from `demoS0`. -/
def demoS1 : SState :=
  tick demoCfg.sched
    { demoS0 with nw := applyToggles demoS0.nw demoP.toggles,
                  stats := addVec demoS0.stats
                    (changeStats demoCfg.model demoS0.nw demoP.toggles),
                  staken := demoS0.staken + 1 }

lemma dot_zero_single (l : List ℚ) : dot [0] l = 0 := by
  cases l <;> simp [dot]

lemma demoAccept : AcceptCond demoCfg.theta
    (changeStats demoCfg.model demoS0.nw demoP.toggles) demoP.ratio (1/2) := by
  have hdot : dot demoCfg.theta
      (changeStats demoCfg.model demoS0.nw demoP.toggles) = 0 := by
    rw [show demoCfg.theta = [0] from rfl, dot_zero_single]
  unfold AcceptCond acceptProb
  rw [hdot, show demoP.ratio = 1 from rfl]
  push_cast
  rw [Real.exp_zero, one_mul, min_self]
  norm_num

lemma demoStep : Step demoCfg demoS0 ⟨some demoP, 1/2⟩ (.next demoS1) :=
  Step.accepted demoP (1/2) (by decide) (by decide) (by decide) demoAccept
    (by decide)

lemma demoRejectCond : ¬ AcceptCond demoCfg.theta
    (changeStats demoCfg.model demoS0.nw demoP.toggles) demoP.ratio 1 := by
  unfold AcceptCond acceptProb
  intro hcon
  rw [show ((1 : ℚ) : ℝ) = (1 : ℝ) by norm_num] at hcon
  exact absurd hcon (not_lt.mpr (min_le_left _ _))

lemma demoStepRej :
    Step demoCfg demoS0 ⟨some demoP, 1⟩ (.next (tick demoCfg.sched demoS0)) :=
  Step.rejected demoP 1 (by decide) (by decide) (by decide) demoRejectCond

lemma demoStepEx :
    Step demoCfg demoS0 ⟨none, 0⟩ (.next (tick demoCfg.sched demoS0)) :=
  Step.exhausted 0 (by decide)

/-- Bounds that the initial graph already violates (maxOut 0 everywhere). -/
def demoBadBd : DegreeBound :=
  { bounds := [⟨0, 0, 0, 0⟩, ⟨0, 0, 0, 0⟩, ⟨0, 0, 0, 0⟩], condAllDegExact := false }

def demoBadCfg : Config := { demoCfg with bd := demoBadBd }

/-- A ceiling below the initial edge count. -/
def demoCapCfg : Config := { demoCfg with maxedges := 0 }

lemma demoCapStep : Step demoCapCfg demoS0 ⟨some demoP, 1/2⟩
    (.fatal .capacityExceeded demoS0.buffer) :=
  Step.capacity demoP (1/2) (by decide) (by decide) (by decide) demoAccept
    (by decide)

/-! ### Witnesses -/

/-- Witness for C1 on the concrete one-step accepted run. -/
theorem claim_c1_wit :
    withinBounds demoCfg.bd demoS1.nw = true ∧
      (demoCfg.bd.condAllDegExact = true → degPreserved demoNw demoS1.nw = true) :=
  claim_c1 demoCfg demoNw [⟨some demoP, 1/2⟩] demoS1 rfl
    (Run.cons demoStep (Run.nil demoS1))

/-- Witness for C2: the accepted step satisfies the acceptance
equivalence at a concrete proposal and draw. -/
theorem claim_c2_wit :
    (∃ s1, (Outcome.next demoS1) = .next s1 ∧ s1.staken = demoS0.staken + 1) ↔
      AcceptCond demoCfg.theta
        (changeStats demoCfg.model demoS0.nw demoP.toggles) demoP.ratio (1/2) :=
  claim_c2 demoCfg demoS0 demoP (1/2) (.next demoS1) demoStep (by decide)
    (by decide) (by decide)

/-- Witness for C3 on a concrete rejected step (draw r = 1). -/
theorem claim_c3_wit :
    (tick demoCfg.sched demoS0).nw = demoS0.nw ∧
      (tick demoCfg.sched demoS0).stats = demoS0.stats :=
  claim_c3 demoCfg demoS0 (tick demoCfg.sched demoS0) ⟨some demoP, 1⟩
    demoStepRej (by decide)

/-- Witness for C4 on the concrete one-step run. -/
theorem claim_c4_wit :
    (([⟨some demoP, 1/2⟩] : List StepInput).length < demoCfg.sched.burnin →
        demoS1.phase = .burnIn) ∧
    (([⟨some demoP, 1/2⟩] : List StepInput).length = demoCfg.sched.burnin →
        demoS1.phase = .sampling) ∧
    demoS1.buffer.length = min demoCfg.sched.samplesize
      ((([⟨some demoP, 1/2⟩] : List StepInput).length - demoCfg.sched.burnin) /
        demoCfg.sched.interval) ∧
    (demoS1.phase = .done ↔ demoS1.buffer.length = demoCfg.sched.samplesize) :=
  claim_c4 demoCfg demoNw [⟨some demoP, 1/2⟩] demoS1 (by decide) (by decide)
    (Run.cons demoStep (Run.nil demoS1))

/-- Witness for C5 on the concrete one-step accepted run. -/
theorem claim_c5_wit : demoS1.stats = evalAll demoCfg.model demoS1.nw :=
  claim_c5 demoCfg demoNw [⟨some demoP, 1/2⟩] demoS1
    (Run.cons demoStep (Run.nil demoS1))

/-- Witness for C6 on the concrete one-step accepted run. -/
theorem claim_c6_wit : demoS1.nw.degConsistent :=
  claim_c6 demoCfg demoNw [⟨some demoP, 1/2⟩] demoS1 (by decide) (by decide)
    (Run.cons demoStep (Run.nil demoS1))

/-- Witness for C7: a bound the initial graph violates aborts the run. -/
theorem claim_c7_wit :
    (RunResult.fail SamplerError.invalidConfiguration ([] : List (List ℚ))) =
      .fail .invalidConfiguration [] :=
  claim_c7 demoBadCfg demoNw 0 [] (.fail .invalidConfiguration [])
    (by decide) (by decide) (WrapperRun.initFail [] rfl)

/-- Witness for C8: a concrete capacity-exceeding accepted move is fatal,
and a ceiling below the initial edge count fails at initialization. -/
theorem claim_c8_wit :
    (Outcome.fatal SamplerError.capacityExceeded demoS0.buffer) =
        .fatal .capacityExceeded demoS0.buffer ∧
      initCheck demoCapCfg demoNw = .error .capacityExceeded :=
  ⟨claim_c8.1 demoCapCfg demoS0 demoP (1/2)
      (.fatal .capacityExceeded demoS0.buffer) demoCapStep (by decide)
      (by decide) demoAccept (by decide),
   claim_c8.2 demoCapCfg demoNw (by decide) (by decide)⟩

/-- Witness for C9 on a concrete exhausted proposal. -/
theorem claim_c9_wit :
    ∃ s1, (Outcome.next (tick demoCfg.sched demoS0)) = .next s1 ∧
      s1.nw = demoS0.nw ∧ s1.stats = demoS0.stats ∧
      s1.staken = demoS0.staken :=
  claim_c9 demoCfg demoS0 0 (.next (tick demoCfg.sched demoS0)) demoStepEx

/-- Witness for C10 on the concrete accepted step and one-step run. -/
theorem claim_c10_wit :
    ((demoS1.staken = demoS0.staken + 1 ∧ demoS1.nw ≠ demoS0.nw) ∨
      (demoS1.staken = demoS0.staken ∧ demoS1.nw = demoS0.nw)) ∧
    (demoS0.staken ≤ demoS1.staken ∧
      demoS1.staken ≤ demoS0.staken +
        ([⟨some demoP, 1/2⟩] : List StepInput).length) :=
  ⟨claim_c10.1 demoCfg demoS0 demoS1 ⟨some demoP, 1/2⟩ demoStep,
   claim_c10.2 demoCfg demoS0 [⟨some demoP, 1/2⟩] demoS1
     (Run.cons demoStep (Run.nil demoS1))⟩

end CondDeg
